import Mathlib

/-!
Verification of the certificate-bundle normalizer (convert-certs.js).

The program text is shallowly embedded: JS strings are modelled as
List Char, each JS function or inline pipeline stage becomes a Lean
definition translated from the source, and the one impure boundary
(the external openssl reader) is an injected function parameter, as the
design notes themselves prescribe for testing.  Machine-level concerns
(file descriptors, the child process) are outside the embedding; the
filesystem effect of a run is modelled as the ordered list of writes.
-/

/-- Membership in the base64 alphabet A-Z a-z 0-9 + / = , the character
class [A-Za-z0-9+/=] used throughout convert-certs.js. -/
def isB64Char (c : Char) : Bool :=
  (decide ('A' ≤ c) && decide (c ≤ 'Z')) ||
  (decide ('a' ≤ c) && decide (c ≤ 'z')) ||
  (decide ('0' ≤ c) && decide (c ≤ '9')) ||
  c == '+' || c == '/' || c == '='

/-- Whitespace as matched by the JS regex class \s and removed by
String.prototype.trim, restricted to the ASCII whitespace characters
(the Unicode space characters JS also accepts cannot interact with any
claim, since inputs of interest are ASCII and the base64 alphabet is
ASCII). -/
def isJsSpace (c : Char) : Bool :=
  c == ' ' || c == '\t' || c == '\n' || c == '\r' || c == '\x0b' || c == '\x0c'

/-- Model of JS String.prototype.trim: drop whitespace from both ends. -/
def jsTrim (l : List Char) : List Char :=
  ((l.dropWhile isJsSpace).reverse.dropWhile isJsSpace).reverse

/-- Accumulator loop for splitLines (current line is held reversed). -/
def splitLinesAux (cur : List Char) : List Char → List (List Char)
  | [] => [cur.reverse]
  | '\r' :: '\n' :: cs => cur.reverse :: splitLinesAux [] cs
  | '\n' :: cs => cur.reverse :: splitLinesAux [] cs
  | c :: cs => splitLinesAux (c :: cur) cs

/-- Model of raw.split(/\r?\n/): split on \r\n or lone \n; a lone \r is
not a separator.  Like the JS split, an input without trailing newline
still yields a final (possibly empty) line. -/
def splitLines (l : List Char) : List (List Char) :=
  splitLinesAux [] l

/-- Model of .replace(/\r?\n/g, ): remove every \r\n pair and every
lone \n; a \r not followed by \n survives, exactly as in the regex. -/
def stripCrlf : List Char → List Char
  | [] => []
  | '\r' :: '\n' :: cs => stripCrlf cs
  | '\n' :: cs => stripCrlf cs
  | c :: cs => c :: stripCrlf cs

/-- First occurrence of the pattern pat inside l: returns the text
before the occurrence and the text after it.  This is the primitive
with which the dotall non-greedy PEM-block regex is modelled. -/
def splitOnFirst (pat : List Char) : List Char → Option (List Char × List Char)
  | [] => none
  | c :: cs =>
    if List.isPrefixOf pat (c :: cs) then some ([], List.drop pat.length (c :: cs))
    else
      match splitOnFirst pat cs with
      | some (pre, post) => some (c :: pre, post)
      | none => none

/-- The literal PEM header -----BEGIN CERTIFICATE----- of the source. -/
def headerLine : List Char := "-----BEGIN CERTIFICATE-----".data

/-- The literal PEM footer -----END CERTIFICATE----- of the source. -/
def footerLine : List Char := "-----END CERTIFICATE-----".data

/-- Iteration of the global regex
-----BEGIN CERTIFICATE-----(.*?)-----END CERTIFICATE----- (dotall,
non-greedy): find a header, then the nearest following footer, capture
the text between them, and continue after the footer.  The fuel
argument only bounds the number of iterations; every iteration consumes
at least the header and footer text, so fuel equal to the input length
(as passed by pemBlocks) is never exhausted first. -/
def pemBlocksAux (fuel : Nat) (l : List Char) : List (List Char) :=
  match fuel with
  | 0 => []
  | fuel + 1 =>
    match splitOnFirst headerLine l with
    | none => []
    | some (_, afterHeader) =>
      match splitOnFirst footerLine afterHeader with
      | none => []
      | some (body, rest) => body :: pemBlocksAux fuel rest

/-- All captures of the PEM-block regex over the input, in order. -/
def pemBlocks (l : List Char) : List (List Char) :=
  pemBlocksAux l.length l

/-- Strategy 1 of the extractor (line 39 of the source): every PEM-block
capture, with \r?\n removed and the result trimmed. -/
def strategy1 (raw : List Char) : List (List Char) :=
  (pemBlocks raw).map (fun b => jsTrim (stripCrlf b))

/-- Case-insensitive ASCII prefix test, modelling /^pat/i.test(l) for an
ASCII pattern pat given in lower case. -/
def startsWithCI (pat : List Char) (l : List Char) : Bool :=
  List.isPrefixOf pat (l.map Char.toLower)

/-- Single newline-join of a list of lines, modelling
Array.prototype.join with separator \n (also used, on whole PEM texts,
by the chain-file writer). -/
def joinNL : List (List Char) → List Char
  | [] => []
  | [a] => a
  | a :: b :: t => a ++ '\n' :: joinNL (b :: t)

/-- The cleaned text of strategy 2 (lines 44-48): lines are trimmed,
empty lines and lines starting (case-insensitively) with subject= or
issuer= are dropped, the rest re-joined with \n. -/
def cleanedText (raw : List Char) : List Char :=
  joinNL (((splitLines raw).map jsTrim).filter
    (fun l => !l.isEmpty && !startsWithCI "subject=".data l && !startsWithCI "issuer=".data l))

/-- Character class [A-Za-z0-9+/=\s] of the strategy-2 regex. -/
def isStrat2Char (c : Char) : Bool := isB64Char c || isJsSpace c

/-- Accumulator loop for runsOf (current run is held reversed). -/
def runsAux (p : Char → Bool) (cur : List Char) : List Char → List (List Char)
  | [] => if cur.isEmpty then [] else [cur.reverse]
  | c :: cs =>
    if p c then runsAux p (c :: cur) cs
    else if cur.isEmpty then runsAux p [] cs else cur.reverse :: runsAux p [] cs

/-- Maximal runs of characters satisfying p, in input order: the
successive matches of a greedy global regex over the class p. -/
def runsOf (p : Char → Bool) (l : List Char) : List (List Char) :=
  runsAux p [] l

/-- Strategy 2 of the extractor (lines 50-53): maximal runs of base64
and whitespace characters at least 200 long in the cleaned text, with
all whitespace then stripped (replace(/\s+/g, )). -/
def strategy2 (raw : List Char) : List (List Char) :=
  ((runsOf isStrat2Char (cleanedText raw)).filter (fun run => decide (200 ≤ run.length))).map
    (fun run => run.filter (fun c => !isJsSpace c))

/-- Lower-cased image of the BEGIN marker, for the /^...$/i tests. -/
def beginMarkerLC : List Char := "-----begin certificate-----".data

/-- Lower-cased image of the END marker, for the /^...$/i tests. -/
def endMarkerLC : List Char := "-----end certificate-----".data

/-- Lower-casing of a line, modelling the case-insensitive flag of the
exact-marker regexes (the markers are ASCII). -/
def lineToLower (l : List Char) : List Char := l.map Char.toLower

/-- Loop body of strategy 3 (lines 62-74): a BEGIN line resets the
buffer, an END line emits the buffer (whitespace-stripped) if it is
non-empty and resets it, a line consisting solely of base64 characters
is appended to the buffer, everything else is skipped, and whatever is
left in the buffer at end of input is dropped. -/
def salvageAux (buf : List Char) : List (List Char) → List (List Char)
  | [] => []
  | line :: rest =>
    if lineToLower line = beginMarkerLC then salvageAux [] rest
    else if lineToLower line = endMarkerLC then
      if buf.isEmpty then salvageAux [] rest
      else buf.filter (fun c => !isJsSpace c) :: salvageAux [] rest
    else if !line.isEmpty && line.all isB64Char then salvageAux (buf ++ line) rest
    else salvageAux buf rest

/-- Strategy 3 of the extractor (lines 57-76): the line-by-line salvage
heuristic over the trimmed lines of the input. -/
def strategy3 (raw : List Char) : List (List Char) :=
  salvageAux [] ((splitLines raw).map jsTrim)

/-- The full extractor (lines 38-76): strategy 1, then strategy 2 if
strategy 1 produced nothing, then strategy 3 if both produced nothing,
mirroring the two matches.length === 0 re-assignments of the source. -/
def extractCerts (raw : List Char) : List (List Char) :=
  if (strategy1 raw).length = 0 then
    if (strategy2 raw).length = 0 then strategy3 raw else strategy2 raw
  else strategy1 raw

/-- One step of the global replace (.{1,64})/$1\n of wrap64 (line 34):
a dot never matches a newline, so each match is the longest run of at
most 64 non-newline characters at the current position (the quantifier
needs at least one), a newline is appended after each match, and an
unmatched newline character is copied through. -/
def wrapChunks : List Char → List Char
  | [] => []
  | c :: cs =>
    if _h : c = '\n' then '\n' :: wrapChunks cs
    else
      ((c :: cs).takeWhile (fun x => x ≠ '\n')).take 64 ++
        '\n' :: wrapChunks ((c :: cs).drop (((c :: cs).takeWhile (fun x => x ≠ '\n')).take 64).length)
termination_by l => l.length
decreasing_by
  · simp
  · have h1 : ((c :: cs).takeWhile (fun x => x ≠ '\n')) = c :: cs.takeWhile (fun x => x ≠ '\n') := by
      simp [List.takeWhile_cons, _h]
    have h2 : 0 < (((c :: cs).takeWhile (fun x => x ≠ '\n')).take 64).length := by
      rw [h1]; simp
    rw [List.length_drop]
    simp only [List.length_cons] at *
    omega

/-- The function wrap64 of the source (lines 33-35): the chunked
rewrite followed by String.prototype.trim. -/
def wrap64 (s : List Char) : List Char := jsTrim (wrapChunks s)

/-- The per-certificate cleaning b64.replace(/[^A-Za-z0-9+/=]/g, ) of
line 89: drop every character outside the base64 alphabet. -/
def cleanB64 (b64 : List Char) : List Char := b64.filter isB64Char

/-- The PEM template of line 90: header, newline, wrapped body, newline,
footer, newline. -/
def mkPem (cleanedB64 : List Char) : List Char :=
  headerLine ++ '\n' :: wrap64 cleanedB64 ++ '\n' :: footerLine ++ ['\n']

/-- The canonical 64-character split of a certificate body, the
comparator the specification describes for the encoder: full chunks of
64 characters, the final chunk possibly shorter, never padded. -/
def chunks64 : List Char → List (List Char)
  | [] => []
  | c :: cs => (c :: cs).take 64 :: chunks64 ((c :: cs).drop 64)
termination_by l => l.length
decreasing_by simp; omega

/-- One record of the meta array of lines 109-123: the per-certificate
output path, the four optional openssl fields (null when the reader is
unavailable or its output lacks the field), and the PEM text and
cleaned base64 kept from the writing phase. -/
structure CertMeta where
  path : String
  subject : Option (List Char)
  issuer : Option (List Char)
  notBefore : Option (List Char)
  notAfter : Option (List Char)
  pem : List Char
  rawB64 : List Char
deriving DecidableEq

/-- Truthiness of a JS string-or-null value: null and the empty string
are falsy, every other string is truthy. -/
def optTruthy : Option (List Char) → Bool
  | none => false
  | some s => !s.isEmpty

/-- The subjectStrings array of lines 132-133: the subject of every
record whose subject is truthy, in order.  (The map-filter-map of the
source is fused into one filterMap.) -/
def subjectStrings (meta : List CertMeta) : List (List Char) :=
  meta.filterMap (fun m =>
    match m.subject with
    | some t => if t.isEmpty then none else some t
    | none => none)

/-- The candidate test of line 135: m.issuer && !subjectStrings.includes(m.issuer),
with JS truthiness of the issuer string. -/
def candPred (subjects : List (List Char)) (m : CertMeta) : Bool :=
  match m.issuer with
  | none => false
  | some s => !s.isEmpty && !subjects.contains s

/-- The leaf selection of lines 130-144: index of the first record
passing the candidate test, falling back to 0 when none does.  The JS
pairing of Array.find with Array.indexOf reduces to the index of the
first satisfying element: indexOf returns the first index holding a
value equal to the found element, and that element satisfies the same
predicate, so the two indices agree. -/
def leafIndex (meta : List CertMeta) : Nat :=
  match meta.findIdx? (candPred (subjectStrings meta)) with
  | some i => i
  | none => 0

/-- The chain of line 147: every record whose position differs from the
leaf index, in order. -/
def chainCerts (meta : List CertMeta) : List CertMeta :=
  ((meta.enum.filter (fun p => p.1 != leafIndex meta)).map Prod.snd)

/-- The chain-file content of lines 154-163: the join of the chain PEM
texts with separator \n when the chain is non-empty, the empty string
otherwise. -/
def chainFileContent (chain : List CertMeta) : List Char :=
  if 0 < chain.length then joinNL (chain.map (fun c => c.pem)) else []

/-- A single filesystem effect of a run: a directory creation or a
full-file write of the given content. -/
inductive FsWrite where
  | mkdir (name : String)
  | file (name : String) (content : List Char)
deriving DecidableEq

/-- Overall outcome of one process invocation: the usage error of line
27 (exit 2), the no-certificates error of line 80 (exit 3), or normal
completion carrying the ordered artifact writes. -/
inductive RunOutcome where
  | usageError
  | extractionEmpty
  | success (writes : List FsWrite)
deriving DecidableEq

/-- The process exit code of each outcome. -/
def exitCode : RunOutcome → Nat
  | .usageError => 2
  | .extractionEmpty => 3
  | .success _ => 0

/-- The artifacts written under each outcome: both failures exit before
any write (the usage error before the input is even read, the
extraction failure before the output directory is created). -/
def artifacts : RunOutcome → List FsWrite
  | .usageError => []
  | .extractionEmpty => []
  | .success ws => ws

/-- Output path out/cert-(i+1).pem of the certificate at 0-based
extraction position i (line 91). -/
def certFileName (i : Nat) : String := "out/cert-" ++ toString (i + 1) ++ ".pem"

/-- One entry of the pemFiles array (line 93). -/
structure PemFile where
  path : String
  pem : List Char
  rawB64 : List Char
deriving DecidableEq

/-- The matches.forEach loop of lines 88-95: clean each payload, wrap
it into PEM, and record path, PEM text and cleaned base64. -/
def buildPemFiles (ms : List (List Char)) : List PemFile :=
  ms.enum.map (fun p =>
    { path := certFileName p.1, pem := mkPem (cleanB64 p.2), rawB64 := cleanB64 p.2 })

/-- The external certificate reader as an injected capability (spec
sections 6 and 9): given a PEM text it returns the optional subject,
issuer, notBefore and notAfter strings; total absence models openssl
being unavailable, per-field absence models a missing line in its
output. -/
def InspectFn : Type :=
  List Char → Option (List Char) × Option (List Char) × Option (List Char) × Option (List Char)

/-- The meta construction of lines 109-123: run the reader on each
written certificate (the file at p.path holds exactly p.pem) and attach
the four optional fields. -/
def buildMeta (inspect : InspectFn) (pfs : List PemFile) : List CertMeta :=
  pfs.map (fun p =>
    { path := p.path
      subject := (inspect p.pem).1
      issuer := (inspect p.pem).2.1
      notBefore := (inspect p.pem).2.2.1
      notAfter := (inspect p.pem).2.2.2
      pem := p.pem
      rawB64 := p.rawB64 })

/-- JSON string escaping as performed by JSON.stringify, restricted to
the escapes reachable here: a produced PEM text consists of base64
characters, the header and footer characters and newlines, so of the
escape alternatives only \n (and for robustness quote, backslash,
carriage return and tab) can ever fire. -/
def jsonEscape (s : List Char) : List Char :=
  s.flatMap (fun c =>
    if c = '"' then ['\\', '"']
    else if c = '\\' then ['\\', '\\']
    else if c = '\n' then ['\\', 'n']
    else if c = '\r' then ['\\', 'r']
    else if c = '\t' then ['\\', 't']
    else [c])

/-- The upload-ready.json content of lines 167-172:
JSON.stringify({Certificate, CertificateChain}, null, 2). -/
def uploadJsonContent (cert chain : List Char) : List Char :=
  "\x7b\n  \"Certificate\": \"".data ++ jsonEscape cert ++
    "\",\n  \"CertificateChain\": \"".data ++ jsonEscape chain ++ "\"\n\x7d".data

/-- Fallback record for the (unreachable) out-of-bounds index in the
model of meta[leafIndex]. -/
def defaultMeta : CertMeta :=
  { path := "", subject := none, issuer := none, notBefore := none, notAfter := none,
    pem := [], rawB64 := [] }

/-- The whole run of convert-certs.js: argc is process.argv.length, raw
the input file content, inspect the external reader.  Fewer than three
argv entries exits with code 2 before touching the input; an empty
extraction exits with code 3 before the output directory is created;
otherwise the run writes the output directory, one PEM file per
certificate, the leaf file, the chain file and the upload JSON, in that
order. -/
def runMain (argc : Nat) (raw : List Char) (inspect : InspectFn) : RunOutcome :=
  if argc < 3 then .usageError
  else
    let ms := extractCerts raw
    if ms.length = 0 then .extractionEmpty
    else
      let pfs := buildPemFiles ms
      let meta := buildMeta inspect pfs
      let leaf := meta.getD (leafIndex meta) defaultMeta
      let chainBody := chainFileContent (chainCerts meta)
      .success
        (FsWrite.mkdir "out" ::
          pfs.map (fun p => FsWrite.file p.path p.pem) ++
          [FsWrite.file "out/certificate.pem" leaf.pem,
           FsWrite.file "out/certificate_chain.pem" chainBody,
           FsWrite.file "out/upload-ready.json" (uploadJsonContent leaf.pem chainBody)])

/-- Modelled from the words of claim C1 (not from the source): the set
of non-absent subject strings, empty strings included. -/
def claimSubjects (meta : List CertMeta) : List (List Char) :=
  meta.filterMap (fun m => m.subject)

/-- Modelled from the words of claim C1 (not from the source): issuer
present (non-null) and equal to no non-absent subject string. -/
def claimCandidate (meta : List CertMeta) (m : CertMeta) : Bool :=
  match m.issuer with
  | none => false
  | some s => !(claimSubjects meta).contains s

/-- Modelled from the words of claim C1 (not from the source): first
certificate passing claimCandidate, index 0 when none does.  Compared
against leafIndex, which is translated from the source. -/
def claimLeafIndex (meta : List CertMeta) : Nat :=
  match meta.findIdx? (claimCandidate meta) with
  | some i => i
  | none => 0

/-- Leaf candidacy as the code actually decides it, as a proposition:
the issuer is a present, non-empty string equal to no present,
non-empty subject string of the sequence. -/
def IsLeafCandidate (meta : List CertMeta) (m : CertMeta) : Prop :=
  ∃ s, m.issuer = some s ∧ s ≠ [] ∧
    ∀ m2 ∈ meta, ∀ t, m2.subject = some t → t ≠ [] → t ≠ s

/-- Classifier input for the claim C1 counterexample: subject X,
issuer X (issued by something in the bundle, so not a candidate). -/
def cexMetaA : CertMeta :=
  { path := "out/cert-1.pem", subject := some "X".data, issuer := some "X".data,
    notBefore := none, notAfter := none, pem := [], rawB64 := [] }

/-- Classifier input for the claim C1 counterexample: absent subject
and present-but-empty issuer string, as produced by an issuer= line
with empty remainder in the reader output. -/
def cexMetaB : CertMeta :=
  { path := "out/cert-2.pem", subject := none, issuer := some [],
    notBefore := none, notAfter := none, pem := [], rawB64 := [] }

/-- Chain-writer input for the claim C4 counterexample: a record whose
pem field is a newline-terminated one-certificate PEM text. -/
def cexChain1 : CertMeta :=
  { path := "out/cert-1.pem", subject := none, issuer := none,
    notBefore := none, notAfter := none,
    pem := "-----BEGIN CERTIFICATE-----\nQUJD\n-----END CERTIFICATE-----\n".data,
    rawB64 := "QUJD".data }

/-- Second chain-writer input for the claim C4 counterexample. -/
def cexChain2 : CertMeta :=
  { path := "out/cert-2.pem", subject := none, issuer := none,
    notBefore := none, notAfter := none,
    pem := "-----BEGIN CERTIFICATE-----\nWFla\n-----END CERTIFICATE-----\n".data,
    rawB64 := "WFla".data }

theorem b64_not_space {c : Char} (h : isB64Char c = true) : isJsSpace c = false := by
  by_contra hs
  rw [Bool.not_eq_false] at hs
  have h6 : c = ' ' ∨ c = '\t' ∨ c = '\n' ∨ c = '\r' ∨ c = '\x0b' ∨ c = '\x0c' := by
    simpa [isJsSpace, or_assoc] using hs
  rcases h6 with h1 | h1 | h1 | h1 | h1 | h1 <;> subst h1 <;> exact absurd h (by decide)

theorem b64_ne_nl {c : Char} (h : isB64Char c = true) : c ≠ '\n' := by
  intro h1; subst h1; exact absurd h (by decide)

theorem takeWhile_eq_self_of_all {p : Char → Bool} :
    ∀ {l : List Char}, (∀ c ∈ l, p c = true) → l.takeWhile p = l := by
  intro l
  induction l with
  | nil => intro _; rfl
  | cons a t ih =>
    intro h
    rw [List.takeWhile_cons, if_pos (h a (List.mem_cons_self a t))]
    rw [ih (fun c hc => h c (List.mem_cons_of_mem a hc))]

theorem dropWhile_eq_self_of_head {p : Char → Bool} {l : List Char}
    (h : ∀ c, l.head? = some c → p c = false) : l.dropWhile p = l := by
  cases l with
  | nil => rfl
  | cons a t => rw [List.dropWhile_cons, if_neg (by simp [h a rfl])]

theorem getLast?_dropWhile_of_ne_nil {p : Char → Bool} :
    ∀ {l : List Char}, l.dropWhile p ≠ [] → (l.dropWhile p).getLast? = l.getLast? := by
  intro l
  induction l with
  | nil => intro h; exact absurd rfl h
  | cons a t ih =>
    intro h
    rw [List.dropWhile_cons]
    by_cases hp : p a = true
    · rw [List.dropWhile_cons, if_pos hp] at h
      have ht : t ≠ [] := by
        intro h0; subst h0; exact h (by rfl)
      rw [if_pos hp, ih h]
      cases t with
      | nil => exact absurd rfl ht
      | cons b u => rw [List.getLast?_cons_cons]
    · rw [if_neg hp]

theorem head?_dropWhile_false {p : Char → Bool} {l : List Char} {c : Char}
    (h : (l.dropWhile p).head? = some c) : p c = false := by
  have h1 := List.head?_dropWhile_not p l
  rw [h] at h1
  exact h1

theorem mem_jsTrim {c : Char} {l : List Char} (h : c ∈ jsTrim l) : c ∈ l := by
  unfold jsTrim at h
  rw [List.mem_reverse] at h
  have h1 := (List.dropWhile_sublist (l := (l.dropWhile isJsSpace).reverse) isJsSpace).mem h
  rw [List.mem_reverse] at h1
  exact (List.dropWhile_sublist isJsSpace).mem h1

theorem jsTrim_head? {l : List Char} {c : Char} (h : (jsTrim l).head? = some c) :
    isJsSpace c = false := by
  unfold jsTrim at h
  rw [List.head?_reverse] at h
  have hne : (((l.dropWhile isJsSpace).reverse).dropWhile isJsSpace) ≠ [] := by
    intro h0; rw [h0] at h; exact Option.noConfusion h
  rw [getLast?_dropWhile_of_ne_nil hne, List.getLast?_reverse] at h
  exact head?_dropWhile_false h

theorem jsTrim_getLast? {l : List Char} {c : Char} (h : (jsTrim l).getLast? = some c) :
    isJsSpace c = false := by
  unfold jsTrim at h
  rw [List.getLast?_reverse] at h
  exact head?_dropWhile_false h

theorem drop_length_take {l : List Char} {n : Nat} :
    l.drop ((l.take n).length) = l.drop n := by
  rw [List.length_take]
  rcases le_total l.length n with h | h
  · rw [min_eq_right h, List.drop_length, List.drop_eq_nil_of_le h]
  · rw [min_eq_left h]

theorem chunks64_ne_nil {l : List Char} (h : l ≠ []) : chunks64 l ≠ [] := by
  cases l with
  | nil => exact absurd rfl h
  | cons c cs => rw [chunks64]; exact List.cons_ne_nil _ _

theorem chunks64_flatten : ∀ l : List Char, (chunks64 l).flatten = l := by
  intro l
  induction l using chunks64.induct with
  | case1 => rw [chunks64]; rfl
  | case2 c cs ih => rw [chunks64, List.flatten_cons, ih, List.take_append_drop]

theorem chunks64_mem : ∀ {l : List Char}, ∀ ch ∈ chunks64 l,
    ch ≠ [] ∧ ch.length ≤ 64 ∧ ∀ c ∈ ch, c ∈ l := by
  intro l
  induction l using chunks64.induct with
  | case1 => intro ch h; rw [chunks64] at h; exact absurd h (List.not_mem_nil ch)
  | case2 c cs ih =>
    intro ch h
    rw [chunks64] at h
    rcases List.mem_cons.mp h with h1 | h1
    · subst h1
      refine ⟨by simp, ?_, fun d hd => List.mem_of_mem_take hd⟩
      rw [List.length_take]; exact min_le_left _ _
    · obtain ⟨hne, hlen, hsub⟩ := ih ch h1
      exact ⟨hne, hlen, fun d hd => List.mem_of_mem_drop (hsub d hd)⟩

theorem chunks64_dropLast : ∀ {l : List Char}, ∀ ch ∈ (chunks64 l).dropLast,
    ch.length = 64 := by
  intro l
  induction l using chunks64.induct with
  | case1 => intro ch h; rw [chunks64] at h; exact absurd h (List.not_mem_nil ch)
  | case2 c cs ih =>
    intro ch h
    rw [chunks64] at h
    by_cases hd : (c :: cs).drop 64 = []
    · rw [hd, chunks64] at h
      exact absurd h (List.not_mem_nil ch)
    · have hrest : chunks64 ((c :: cs).drop 64) ≠ [] := chunks64_ne_nil hd
      cases hr : chunks64 ((c :: cs).drop 64) with
      | nil => exact absurd hr hrest
      | cons b u =>
        rw [hr, List.dropLast_cons₂] at h
        rcases List.mem_cons.mp h with h1 | h1
        · subst h1
          have hlen : 64 < (c :: cs).length := by
            by_contra hle
            exact hd (List.drop_eq_nil_of_le (by omega))
          rw [List.length_take]
          omega
        · exact ih ch (by rw [hr]; exact h1)

theorem wrapChunks_step_no_nl {l : List Char} (hne : l ≠ [])
    (hnl : ∀ c ∈ l, c ≠ '\n') :
    wrapChunks l = l.take 64 ++ '\n' :: wrapChunks (l.drop 64) := by
  cases l with
  | nil => exact absurd rfl hne
  | cons c cs =>
    have hc : ¬(c = '\n') := hnl c (List.mem_cons_self c cs)
    have htw : (c :: cs).takeWhile (fun x => x ≠ '\n') = c :: cs := by
      apply takeWhile_eq_self_of_all
      intro d hd
      exact decide_eq_true (hnl d hd)
    rw [wrapChunks, dif_neg hc, htw, drop_length_take]

theorem wrapChunks_eq_flatten : ∀ {l : List Char}, (∀ c ∈ l, c ≠ '\n') →
    wrapChunks l = ((chunks64 l).map (fun ch => ch ++ ['\n'])).flatten := by
  intro l
  induction l using chunks64.induct with
  | case1 => intro _; rw [chunks64, wrapChunks]; rfl
  | case2 c cs ih =>
    intro hnl
    rw [wrapChunks_step_no_nl (List.cons_ne_nil c cs) hnl, chunks64,
      List.map_cons, List.flatten_cons,
      ih (fun d hd => hnl d (List.mem_of_mem_drop hd))]
    simp [List.append_assoc]

theorem joinNL_ne_nil {a : List Char} {t : List (List Char)} (ha : a ≠ []) :
    joinNL (a :: t) ≠ [] := by
  cases t with
  | nil => exact ha
  | cons b u =>
    rw [joinNL]
    cases a with
    | nil => exact absurd rfl ha
    | cons x xs => exact List.cons_ne_nil _ _

theorem flatten_map_eq_joinNL : ∀ {chs : List (List Char)}, chs ≠ [] →
    ((chs.map (fun ch => ch ++ ['\n'])).flatten) = joinNL chs ++ ['\n'] := by
  intro chs
  induction chs using joinNL.induct with
  | case1 => intro h; exact absurd rfl h
  | case2 a => intro _; rw [joinNL]; simp
  | case3 a b t ih =>
    intro _
    rw [joinNL, List.map_cons, List.flatten_cons, ih (List.cons_ne_nil b t)]
    simp [List.append_assoc]

theorem joinNL_head? {a : List Char} {t : List (List Char)} (ha : a ≠ []) :
    (joinNL (a :: t)).head? = a.head? := by
  cases t with
  | nil => rfl
  | cons b u =>
    rw [joinNL]
    cases a with
    | nil => exact absurd rfl ha
    | cons x xs => rw [List.cons_append, List.head?_cons, List.head?_cons]

theorem joinNL_getLast?_mem : ∀ {chs : List (List Char)},
    (∀ ch ∈ chs, ch ≠ []) → ∀ d, (joinNL chs).getLast? = some d →
    ∃ ch ∈ chs, d ∈ ch := by
  intro chs
  induction chs using joinNL.induct with
  | case1 =>
    intro _ d h
    rw [joinNL] at h
    exact Option.noConfusion h
  | case2 a =>
    intro _ d h
    rw [joinNL] at h
    exact ⟨a, List.mem_cons_self a [], List.mem_of_getLast?_eq_some h⟩
  | case3 a b t ih =>
    intro hne d h
    rw [joinNL] at h
    have hj : joinNL (b :: t) ≠ [] :=
      joinNL_ne_nil (hne b (List.mem_cons_of_mem a (List.mem_cons_self b t)))
    cases hcase : joinNL (b :: t) with
    | nil => exact absurd hcase hj
    | cons y ys =>
      rw [hcase, List.getLast?_append_cons, List.getLast?_cons_cons] at h
      obtain ⟨ch, hch, hd⟩ := ih (fun x hx => hne x (List.mem_cons_of_mem a hx)) d
        (by rw [hcase]; exact h)
      exact ⟨ch, List.mem_cons_of_mem a hch, hd⟩

theorem filter_joinNL : ∀ {chs : List (List Char)},
    (∀ ch ∈ chs, ∀ c ∈ ch, c ≠ '\n') →
    (joinNL chs).filter (fun c => c != '\n') = chs.flatten := by
  intro chs
  induction chs using joinNL.induct with
  | case1 => intro _; rfl
  | case2 a =>
    intro h
    rw [joinNL, List.flatten_cons, List.flatten_nil, List.append_nil]
    rw [List.filter_eq_self]
    intro c hc
    simpa using h a (List.mem_cons_self a []) c hc
  | case3 a b t ih =>
    intro h
    rw [joinNL, List.filter_append, List.filter_cons, List.flatten_cons]
    have hnl : ((('\n' : Char) != '\n') = true) = False := by simp
    simp only [bne_self_eq_false, Bool.false_eq_true, if_false]
    rw [ih (fun x hx => h x (List.mem_cons_of_mem a hx))]
    congr 1
    rw [List.filter_eq_self]
    intro c hc
    simpa using h a (List.mem_cons_self a _) c hc

theorem jsTrim_append_nl {l : List Char} (hne : l ≠ [])
    (hh : ∀ c, l.head? = some c → isJsSpace c = false)
    (hl : ∀ c, l.getLast? = some c → isJsSpace c = false) :
    jsTrim (l ++ ['\n']) = l := by
  unfold jsTrim
  have h1 : (l ++ ['\n']).dropWhile isJsSpace = l ++ ['\n'] := by
    apply dropWhile_eq_self_of_head
    intro c hc
    cases l with
    | nil => exact absurd rfl hne
    | cons a t =>
      rw [List.cons_append, List.head?_cons] at hc
      exact hh c (by rw [List.head?_cons]; exact hc)
  rw [h1]
  have h2 : (l ++ ['\n']).reverse = '\n' :: l.reverse := by
    rw [List.reverse_append]; rfl
  rw [h2, List.dropWhile_cons, if_pos (by decide)]
  have h3 : l.reverse.dropWhile isJsSpace = l.reverse := by
    apply dropWhile_eq_self_of_head
    intro c hc
    rw [List.head?_reverse] at hc
    exact hl c hc
  rw [h3, List.reverse_reverse]

theorem wrap64_eq_joinNL {l : List Char} (hne : l ≠ [])
    (hb : ∀ c ∈ l, isB64Char c = true) :
    wrap64 l = joinNL (chunks64 l) := by
  have hnl : ∀ c ∈ l, c ≠ '\n' := fun c hc => b64_ne_nl (hb c hc)
  have hw : wrapChunks l = joinNL (chunks64 l) ++ ['\n'] := by
    rw [wrapChunks_eq_flatten hnl, flatten_map_eq_joinNL (chunks64_ne_nil hne)]
  have hchne : ∀ ch ∈ chunks64 l, ch ≠ [] := fun ch hch => (chunks64_mem ch hch).1
  unfold wrap64
  rw [hw]
  cases hc : chunks64 l with
  | nil => exact absurd hc (chunks64_ne_nil hne)
  | cons a t =>
    apply jsTrim_append_nl
    · exact joinNL_ne_nil (hchne a (by rw [hc]; exact List.mem_cons_self a t))
    · intro c hcc
      rw [joinNL_head? (hchne a (hc.symm ▸ List.mem_cons_self a t))] at hcc
      have hmem : c ∈ a := by
        cases a with
        | nil => exact Option.noConfusion hcc
        | cons x xs =>
          rw [List.head?_cons] at hcc
          exact (Option.some.inj hcc) ▸ List.mem_cons_self x xs
      have hcl : c ∈ l :=
        (chunks64_mem (l := l) a (hc.symm ▸ List.mem_cons_self a t)).2.2 c hmem
      exact b64_not_space (hb c hcl)
    · intro c hcc
      obtain ⟨ch, hch, hmem⟩ := joinNL_getLast?_mem (hc ▸ hchne) c hcc
      have hcl : c ∈ l :=
        (chunks64_mem (l := l) ch (hc.symm ▸ hch)).2.2 c hmem
      exact b64_not_space (hb c hcl)

/-- Claim C2 (confirmed): for every non-empty RawCertificate r over the
base64 alphabet, the body of the produced PEM between the header line
and the footer line is wrap64 r, and removing the line breaks from it
yields exactly r. -/
theorem encode_roundtrip (r : List Char) (hne : r ≠ [])
    (hb : ∀ c ∈ r, isB64Char c = true) :
    mkPem r = headerLine ++ '\n' :: wrap64 r ++ '\n' :: footerLine ++ ['\n'] ∧
    (wrap64 r).filter (fun c => c != '\n') = r := by
  refine ⟨rfl, ?_⟩
  rw [wrap64_eq_joinNL hne hb]
  rw [filter_joinNL (fun ch hch c hc =>
    b64_ne_nl (hb c ((chunks64_mem (l := r) ch hch).2.2 c hc)))]
  exact chunks64_flatten r

/-- Witness for encode_roundtrip at the concrete payload QUJD. -/
theorem encode_roundtrip_witness :
    ("QUJD".data ≠ [] ∧ ∀ c ∈ "QUJD".data, isB64Char c = true) ∧
    (mkPem "QUJD".data =
        headerLine ++ '\n' :: wrap64 "QUJD".data ++ '\n' :: footerLine ++ ['\n'] ∧
      (wrap64 "QUJD".data).filter (fun c => c != '\n') = "QUJD".data) :=
  ⟨⟨by decide, by decide⟩, encode_roundtrip "QUJD".data (by decide) (by decide)⟩

/-- Claim C8 (confirmed): for every non-empty RawCertificate r over the
base64 alphabet, the produced PEM is the header line, the body of r
split into newline-separated lines of exactly 64 characters except a
possibly shorter never-padded last line, the footer line, and exactly
one trailing newline (the final character is a newline preceded by a
non-newline character). -/
theorem encode_structure (r : List Char) (hne : r ≠ [])
    (hb : ∀ c ∈ r, isB64Char c = true) :
    mkPem r = headerLine ++ '\n' :: joinNL (chunks64 r) ++ '\n' :: footerLine ++ ['\n'] ∧
    chunks64 r ≠ [] ∧
    (∀ ch ∈ (chunks64 r).dropLast, ch.length = 64) ∧
    (∀ ch ∈ chunks64 r, 0 < ch.length ∧ ch.length ≤ 64) ∧
    (chunks64 r).flatten = r ∧
    ['-', '\n'] <:+ mkPem r := by
  refine ⟨?_, chunks64_ne_nil hne, fun ch hch => chunks64_dropLast ch hch,
    fun ch hch => ⟨List.length_pos.mpr (chunks64_mem (l := r) ch hch).1,
      (chunks64_mem (l := r) ch hch).2.1⟩,
    chunks64_flatten r, ?_⟩
  · unfold mkPem
    rw [wrap64_eq_joinNL hne hb]
  · refine ⟨headerLine ++ '\n' :: wrap64 r ++ '\n' :: "-----END CERTIFICATE----".data, ?_⟩
    have hf : footerLine = "-----END CERTIFICATE----".data ++ ['-'] := by decide
    unfold mkPem
    rw [hf]
    simp [List.append_assoc]

/-- Witness for encode_structure at a concrete 70-character payload,
exercising the 64-character wrap. -/
theorem encode_structure_witness :
    (("QUJDREVGRzAxMjM0NTY3ODlhYmNkZWZnaGlqa2xtbm9wcXJzdHV2d3h5ejAxMjM0NTY3ODkw".data : List Char) ≠ [] ∧
      ∀ c ∈ "QUJDREVGRzAxMjM0NTY3ODlhYmNkZWZnaGlqa2xtbm9wcXJzdHV2d3h5ejAxMjM0NTY3ODkw".data,
        isB64Char c = true) ∧
    (mkPem "QUJDREVGRzAxMjM0NTY3ODlhYmNkZWZnaGlqa2xtbm9wcXJzdHV2d3h5ejAxMjM0NTY3ODkw".data =
        headerLine ++ '\n' ::
          joinNL (chunks64 "QUJDREVGRzAxMjM0NTY3ODlhYmNkZWZnaGlqa2xtbm9wcXJzdHV2d3h5ejAxMjM0NTY3ODkw".data) ++
          '\n' :: footerLine ++ ['\n'] ∧
      chunks64 "QUJDREVGRzAxMjM0NTY3ODlhYmNkZWZnaGlqa2xtbm9wcXJzdHV2d3h5ejAxMjM0NTY3ODkw".data ≠ [] ∧
      (∀ ch ∈ (chunks64 "QUJDREVGRzAxMjM0NTY3ODlhYmNkZWZnaGlqa2xtbm9wcXJzdHV2d3h5ejAxMjM0NTY3ODkw".data).dropLast,
        ch.length = 64) ∧
      (∀ ch ∈ chunks64 "QUJDREVGRzAxMjM0NTY3ODlhYmNkZWZnaGlqa2xtbm9wcXJzdHV2d3h5ejAxMjM0NTY3ODkw".data,
        0 < ch.length ∧ ch.length ≤ 64) ∧
      (chunks64 "QUJDREVGRzAxMjM0NTY3ODlhYmNkZWZnaGlqa2xtbm9wcXJzdHV2d3h5ejAxMjM0NTY3ODkw".data).flatten =
        "QUJDREVGRzAxMjM0NTY3ODlhYmNkZWZnaGlqa2xtbm9wcXJzdHV2d3h5ejAxMjM0NTY3ODkw".data ∧
      ['-', '\n'] <:+ mkPem "QUJDREVGRzAxMjM0NTY3ODlhYmNkZWZnaGlqa2xtbm9wcXJzdHV2d3h5ejAxMjM0NTY3ODkw".data) :=
  ⟨⟨by decide, by decide⟩,
    encode_structure "QUJDREVGRzAxMjM0NTY3ODlhYmNkZWZnaGlqa2xtbm9wcXJzdHV2d3h5ejAxMjM0NTY3ODkw".data
      (by decide) (by decide)⟩

theorem mem_wrapChunks : ∀ {l : List Char}, ∀ c ∈ wrapChunks l, c ∈ l ∨ c = '\n' := by
  intro l
  induction l using wrapChunks.induct with
  | case1 =>
    intro c hc
    rw [wrapChunks] at hc
    exact absurd hc (List.not_mem_nil c)
  | case2 cs ih =>
    intro c hc
    rw [wrapChunks, dif_pos rfl] at hc
    rcases List.mem_cons.mp hc with h1 | h1
    · exact Or.inr h1
    · rcases ih c h1 with h2 | h2
      · exact Or.inl (List.mem_cons_of_mem _ h2)
      · exact Or.inr h2
  | case3 a cs ha ih =>
    intro c hc
    rw [wrapChunks, dif_neg ha] at hc
    rcases List.mem_append.mp hc with h1 | h1
    · exact Or.inl ((List.takeWhile_sublist _).mem (List.mem_of_mem_take h1))
    · rcases List.mem_cons.mp h1 with h2 | h2
      · exact Or.inr h2
      · rcases ih c h2 with h3 | h3
        · exact Or.inl (List.mem_of_mem_drop h3)
        · exact Or.inr h3

/-- Claim C10 (confirmed): the variable part of every written
per-certificate PEM file consists only of base64-alphabet characters
and the newlines of the 64-character wrapping, whatever garbage the
extracted payload contained, because cleanB64 removes every non-alphabet
character immediately before encoding. -/
theorem written_body_base64 (s : List Char) :
    ∀ c ∈ wrap64 (cleanB64 s), isB64Char c = true ∨ c = '\n' := by
  intro c hc
  have h1 : c ∈ wrapChunks (cleanB64 s) := mem_jsTrim hc
  rcases mem_wrapChunks c h1 with h2 | h2
  · exact Or.inl (List.of_mem_filter h2)
  · exact Or.inr h2

/-- Witness for written_body_base64 at a payload containing garbage. -/
theorem written_body_base64_witness : isB64Char 'Q' = true ∨ 'Q' = '\n' :=
  written_body_base64 "QQ!!QQ".data 'Q' (by
    have h1 : cleanB64 "QQ!!QQ".data = ['Q', 'Q', 'Q', 'Q'] := by decide
    have htake : List.take 64 ['Q', 'Q', 'Q', 'Q'] = ['Q', 'Q', 'Q', 'Q'] := by decide
    have hdrop : List.drop 64 ['Q', 'Q', 'Q', 'Q'] = ([] : List Char) := by decide
    have h2 : chunks64 ['Q', 'Q', 'Q', 'Q'] = [['Q', 'Q', 'Q', 'Q']] := by
      rw [chunks64, htake, hdrop, chunks64]
    rw [h1, wrap64_eq_joinNL (by decide) (by decide), h2, joinNL]
    decide)

theorem salvageAux_no_end : ∀ (lines : List (List Char)) (buf : List Char),
    (∀ line ∈ lines, lineToLower line ≠ endMarkerLC) → salvageAux buf lines = [] := by
  intro lines
  induction lines with
  | nil => intro buf _; rfl
  | cons line rest ih =>
    intro buf h
    rw [salvageAux]
    have hend : ¬lineToLower line = endMarkerLC := h line (List.mem_cons_self _ _)
    by_cases hbeg : lineToLower line = beginMarkerLC
    · rw [if_pos hbeg]
      exact ih [] (fun l hl => h l (List.mem_cons_of_mem _ hl))
    · rw [if_neg hbeg, if_neg hend]
      by_cases hb64 : (!line.isEmpty && line.all isB64Char) = true
      · rw [if_pos hb64]
        exact ih _ (fun l hl => h l (List.mem_cons_of_mem _ hl))
      · rw [if_neg hb64]
        exact ih _ (fun l hl => h l (List.mem_cons_of_mem _ hl))

/-- Claim C5 theorem (amended): in the line-by-line salvage strategy a
RawCertificate is emitted only when some trimmed input line equals the
END marker case-insensitively; in particular a buffer still open at end
of input (no END line at all, whatever BEGIN lines and base64 lines
were seen) is discarded silently and emits nothing.  A preceding BEGIN
line is, however, not required for emission, which is what the
counterexample shows. -/
theorem salvage_requires_end_marker (raw : List Char)
    (h : ∀ line ∈ (splitLines raw).map jsTrim, lineToLower line ≠ endMarkerLC) :
    strategy3 raw = [] :=
  salvageAux_no_end _ [] h

/-- Witness for salvage_requires_end_marker: a BEGIN line and a base64
line with no closing END emit nothing. -/
theorem salvage_requires_end_marker_witness :
    (∀ line ∈ (splitLines "-----BEGIN CERTIFICATE-----\nQUJD".data).map jsTrim,
      lineToLower line ≠ endMarkerLC) ∧
    strategy3 "-----BEGIN CERTIFICATE-----\nQUJD".data = [] :=
  ⟨by decide, salvage_requires_end_marker _ (by decide)⟩

/-- Counterexample to claim C5 as stated: the salvage strategy emits a
RawCertificate for base64 lines that were never preceded by any BEGIN
marker line - the initial buffer is already open, and an END line alone
closes and emits it.  The input QUJD followed by the END marker
contains no BEGIN line, yet one certificate is emitted (and the full
extractor, for which strategies 1 and 2 find nothing here, returns
it). -/
theorem salvage_emits_without_begin_cex :
    strategy3 "QUJD\n-----END CERTIFICATE-----".data = ["QUJD".data] ∧
    extractCerts "QUJD\n-----END CERTIFICATE-----".data = ["QUJD".data] ∧
    ∀ line ∈ (splitLines "QUJD\n-----END CERTIFICATE-----".data).map jsTrim,
      lineToLower line ≠ beginMarkerLC :=
  ⟨by decide, by decide, by decide⟩

theorem salvageAux_nonempty : ∀ (lines : List (List Char)) (buf : List Char),
    (∀ c ∈ buf, isB64Char c = true) → ∀ r ∈ salvageAux buf lines, r ≠ [] := by
  intro lines
  induction lines with
  | nil =>
    intro buf _ r hr
    rw [salvageAux] at hr
    exact absurd hr (List.not_mem_nil r)
  | cons line rest ih =>
    intro buf hbuf r hr
    rw [salvageAux] at hr
    by_cases hbeg : lineToLower line = beginMarkerLC
    · rw [if_pos hbeg] at hr
      exact ih [] (fun c hc => absurd hc (List.not_mem_nil c)) r hr
    · rw [if_neg hbeg] at hr
      by_cases hend : lineToLower line = endMarkerLC
      · rw [if_pos hend] at hr
        by_cases hbe : buf.isEmpty = true
        · rw [if_pos hbe] at hr
          exact ih [] (fun c hc => absurd hc (List.not_mem_nil c)) r hr
        · rw [if_neg hbe] at hr
          rcases List.mem_cons.mp hr with h1 | h1
          · subst h1
            have hfe : buf.filter (fun c => !isJsSpace c) = buf := by
              rw [List.filter_eq_self]
              intro c hc
              simp [b64_not_space (hbuf c hc)]
            rw [hfe]
            intro h0
            rw [h0] at hbe
            exact hbe rfl
          · exact ih [] (fun c hc => absurd hc (List.not_mem_nil c)) r h1
      · rw [if_neg hend] at hr
        by_cases hb64 : (!line.isEmpty && line.all isB64Char) = true
        · rw [if_pos hb64] at hr
          refine ih (buf ++ line) ?_ r hr
          intro c hc
          rcases List.mem_append.mp hc with h1 | h1
          · exact hbuf c h1
          · rw [Bool.and_eq_true] at hb64
            exact List.all_eq_true.mp hb64.2 c h1
        · rw [if_neg hb64] at hr
          exact ih buf hbuf r hr

/-- Claim C6 theorem (amended): every RawCertificate emitted by the
line-by-line salvage strategy is non-empty - its buffer only fills with
base64-alphabet lines and is emitted only when non-empty, so the
whitespace-strip removes nothing.  Strategies 1 and 2 have no such
emptiness check, which is what the counterexample shows. -/
theorem salvage_output_nonempty (raw : List Char) :
    ∀ r ∈ strategy3 raw, r ≠ [] :=
  salvageAux_nonempty _ [] (fun c hc => absurd hc (List.not_mem_nil c))

/-- Witness for salvage_output_nonempty at a full BEGIN and END block. -/
theorem salvage_output_nonempty_witness :
    "QUJE".data ∈
      strategy3 "-----BEGIN CERTIFICATE-----\nQUJE\n-----END CERTIFICATE-----".data ∧
    "QUJE".data ≠ [] :=
  ⟨by decide,
    salvage_output_nonempty
      "-----BEGIN CERTIFICATE-----\nQUJE\n-----END CERTIFICATE-----".data
      "QUJE".data (by decide)⟩

/-- Counterexample to claim C6 as stated: a PEM block with nothing
between its header and footer makes strategy 1 capture the empty
string, which is kept, so the extractor output contains an empty
RawCertificate (and a per-certificate file is then written for it). -/
theorem extractor_emits_empty_cex :
    extractCerts "-----BEGIN CERTIFICATE----------END CERTIFICATE-----".data = [[]] := by
  decide

theorem nl_not_mem_stripCrlf : ∀ l, '\n' ∉ stripCrlf l := by
  intro l
  induction l using stripCrlf.induct <;> simp_all [stripCrlf, eq_comm]

/-- Claim C7 theorem (amended): each RawCertificate of the well-formed
PEM scan has every newline (and every carriage return directly before a
newline) removed and is trimmed of leading and trailing whitespace;
whitespace strictly inside the capture other than line breaks is NOT
removed, which is what the counterexample shows. -/
theorem strategy1_strips_linebreaks (raw : List Char) :
    ∀ r ∈ strategy1 raw, '\n' ∉ r ∧
      (∀ c, r.head? = some c → isJsSpace c = false) ∧
      (∀ c, r.getLast? = some c → isJsSpace c = false) := by
  intro r hr
  obtain ⟨b, _, hb⟩ := List.mem_map.mp hr
  subst hb
  exact ⟨fun h => nl_not_mem_stripCrlf _ (mem_jsTrim h),
    fun c hc => jsTrim_head? hc, fun c hc => jsTrim_getLast? hc⟩

/-- Witness for strategy1_strips_linebreaks at a two-line body. -/
theorem strategy1_strips_linebreaks_witness :
    "QUJDRUZH".data ∈
      strategy1 "-----BEGIN CERTIFICATE-----\nQUJD\nRUZH\n-----END CERTIFICATE-----".data ∧
    ('\n' ∉ "QUJDRUZH".data ∧
      (∀ c, ("QUJDRUZH".data : List Char).head? = some c → isJsSpace c = false) ∧
      (∀ c, ("QUJDRUZH".data : List Char).getLast? = some c → isJsSpace c = false)) :=
  ⟨by decide,
    strategy1_strips_linebreaks
      "-----BEGIN CERTIFICATE-----\nQUJD\nRUZH\n-----END CERTIFICATE-----".data
      "QUJDRUZH".data (by decide)⟩

/-- Counterexample to claim C7 as stated: a space inside a PEM-block
body survives strategy 1, so the produced RawCertificate is not
restricted to base64-alphabet characters; only line breaks are removed
at this stage. -/
theorem strategy1_keeps_inner_space_cex :
    strategy1 "-----BEGIN CERTIFICATE-----\nAB CD\n-----END CERTIFICATE-----".data =
      ["AB CD".data] ∧
    ¬(∀ c ∈ ("AB CD".data : List Char), isB64Char c = true) :=
  ⟨by decide, by decide⟩

/-- Claim C3 (confirmed): the extractor returns exactly strategy 1's
output whenever that is non-empty, strategy 2's output when strategy 1
yields nothing and strategy 2 does not, and strategy 3's output only
when both earlier strategies yield nothing. -/
theorem extract_priority (raw : List Char) :
    (strategy1 raw ≠ [] → extractCerts raw = strategy1 raw) ∧
    (strategy1 raw = [] → strategy2 raw ≠ [] → extractCerts raw = strategy2 raw) ∧
    (strategy1 raw = [] → strategy2 raw = [] → extractCerts raw = strategy3 raw) := by
  refine ⟨fun h1 => ?_, fun h1 h2 => ?_, fun h1 h2 => ?_⟩
  · rw [extractCerts, if_neg (by simpa [List.length_eq_zero] using h1)]
  · rw [extractCerts, if_pos (by simp [h1]),
      if_neg (by simpa [List.length_eq_zero] using h2)]
  · rw [extractCerts, if_pos (by simp [h1]), if_pos (by simp [h2])]

/-- Witness for extract_priority: one input where strategy 1 wins, and
one (lower-case markers, invisible to the case-sensitive strategy-1
regex and too short for strategy 2) where strategy 3 is reached. -/
theorem extract_priority_witness :
    (strategy1 "-----BEGIN CERTIFICATE-----\nQUJD\n-----END CERTIFICATE-----".data ≠ [] ∧
      extractCerts "-----BEGIN CERTIFICATE-----\nQUJD\n-----END CERTIFICATE-----".data =
        strategy1 "-----BEGIN CERTIFICATE-----\nQUJD\n-----END CERTIFICATE-----".data) ∧
    (strategy1 "QUJG\n-----end certificate-----".data = [] ∧
      strategy2 "QUJG\n-----end certificate-----".data = [] ∧
      extractCerts "QUJG\n-----end certificate-----".data =
        strategy3 "QUJG\n-----end certificate-----".data) :=
  ⟨⟨by decide, (extract_priority _).1 (by decide)⟩,
    ⟨by decide, by decide, (extract_priority _).2.2 (by decide) (by decide)⟩⟩

theorem mem_subjectStrings {meta : List CertMeta} {t : List Char} :
    t ∈ subjectStrings meta ↔ ∃ m2 ∈ meta, m2.subject = some t ∧ t ≠ [] := by
  unfold subjectStrings
  rw [List.mem_filterMap]
  constructor
  · rintro ⟨m2, hm2, hf⟩
    cases hs : m2.subject with
    | none => rw [hs] at hf; exact Option.noConfusion hf
    | some u =>
      rw [hs] at hf
      dsimp only at hf
      by_cases hu : u.isEmpty = true
      · rw [if_pos hu] at hf; exact Option.noConfusion hf
      · rw [if_neg hu] at hf
        obtain rfl := Option.some.inj hf
        exact ⟨m2, hm2, hs, by simpa [List.isEmpty_iff] using hu⟩
  · rintro ⟨m2, hm2, hs, hne⟩
    refine ⟨m2, hm2, ?_⟩
    rw [hs]
    dsimp only
    rw [if_neg (by simpa [List.isEmpty_iff] using hne)]

theorem contains_iff_mem {L : List (List Char)} {s : List Char} :
    L.contains s = true ↔ s ∈ L := by
  rw [List.contains_iff_exists_mem_beq]
  simp

theorem candPred_iff (meta : List CertMeta) (m : CertMeta) :
    candPred (subjectStrings meta) m = true ↔ IsLeafCandidate meta m := by
  unfold candPred IsLeafCandidate
  cases hi : m.issuer with
  | none => simp
  | some s =>
    dsimp only
    rw [Bool.and_eq_true]
    constructor
    · rintro ⟨h1, h2⟩
      refine ⟨s, rfl, by simpa [List.isEmpty_iff] using h1, ?_⟩
      intro m2 hm2 t hsub htne hts
      subst hts
      have hmem : t ∈ subjectStrings meta := mem_subjectStrings.mpr ⟨m2, hm2, hsub, htne⟩
      rw [Bool.not_eq_true', ← Bool.not_eq_true] at h2
      exact h2 (contains_iff_mem.mpr hmem)
    · rintro ⟨s2, hs2, hne2, hall⟩
      obtain rfl := Option.some.inj hs2
      refine ⟨by simpa [List.isEmpty_iff] using hne2, ?_⟩
      rw [Bool.not_eq_true', ← Bool.not_eq_true]
      intro hcontains
      obtain ⟨m2, hm2, hsub, htne⟩ := mem_subjectStrings.mp (contains_iff_mem.mp hcontains)
      exact hall m2 hm2 _ hsub htne rfl

theorem findIdx?_split {α : Type} (p : α → Bool) :
    ∀ (l : List α) (i : Nat),
      (∃ pre a post, l = pre ++ a :: post ∧ List.findIdx? p l i = some (i + pre.length) ∧
        p a = true ∧ ∀ m ∈ pre, p m = false) ∨
      (List.findIdx? p l i = none ∧ ∀ m ∈ l, p m = false) := by
  intro l
  induction l with
  | nil =>
    intro i
    exact Or.inr ⟨rfl, fun m hm => absurd hm (List.not_mem_nil m)⟩
  | cons a t ih =>
    intro i
    by_cases hp : p a = true
    · left
      exact ⟨[], a, t, rfl, by rw [List.findIdx?_cons, if_pos hp]; simp, hp,
        fun m hm => absurd hm (List.not_mem_nil m)⟩
    · have hfa : p a = false := by
        cases hpa : p a with
        | true => exact absurd hpa hp
        | false => rfl
      rcases ih (i + 1) with ⟨pre, b, post, heq, hfind, hpb, hpre⟩ | ⟨hfind, hall⟩
      · left
        refine ⟨a :: pre, b, post, by rw [heq]; rfl, ?_, hpb, ?_⟩
        · rw [List.findIdx?_cons, if_neg hp, hfind]
          congr 1
          simp only [List.length_cons]
          omega
        · intro m hm
          rcases List.mem_cons.mp hm with h1 | h1
          · subst h1; exact hfa
          · exact hpre m h1
      · right
        refine ⟨by rw [List.findIdx?_cons, if_neg hp, hfind], ?_⟩
        intro m hm
        rcases List.mem_cons.mp hm with h1 | h1
        · subst h1; exact hfa
        · exact hall m h1

theorem enumFrom_filter_map : ∀ (l : List CertMeta) (n k : Nat),
    ((l.enumFrom n).filter (fun p => p.1 != k)).map Prod.snd =
      if n ≤ k then l.eraseIdx (k - n) else l := by
  intro l
  induction l with
  | nil =>
    intro n k
    simp only [List.enumFrom_nil, List.filter_nil, List.map_nil]
    split <;> rfl
  | cons a t ih =>
    intro n k
    rw [show (a :: t).enumFrom n = (n, a) :: t.enumFrom (n + 1) from rfl,
      List.filter_cons]
    by_cases hnk : n = k
    · subst hnk
      simp only [bne_self_eq_false, Bool.false_eq_true, if_false]
      rw [ih (n + 1) n, if_neg (by omega), if_pos (le_refl n), Nat.sub_self]
      rfl
    · have hbne : ((n != k) = true) := by simpa using hnk
      rw [if_pos hbne, List.map_cons, ih (n + 1) k]
      by_cases hle : n ≤ k
      · rw [if_pos (by omega), if_pos hle]
        have hk : k - n = (k - (n + 1)) + 1 := by omega
        rw [hk]
        rfl
      · rw [if_neg (by omega), if_neg hle]

theorem chainCerts_eq_eraseIdx (meta : List CertMeta) :
    chainCerts meta = meta.eraseIdx (leafIndex meta) := by
  unfold chainCerts
  rw [show meta.enum = meta.enumFrom 0 from rfl,
    enumFrom_filter_map meta 0 (leafIndex meta), if_pos (Nat.zero_le _), Nat.sub_zero]

/-- Claim C1 theorem (amended): the classifier selects as leaf the
first certificate in extraction order whose issuer string is present
AND NON-EMPTY and equals no certificate's present non-empty subject
string (presence alone is not enough: JS truthiness treats an empty
issuer string as absent, which is what the counterexample shows); when
no such candidate exists the leaf is extraction index 0; classification
is a total function of the metadata, so it never raises; and the chain
is the input sequence in original order with exactly the leaf position
removed. -/
theorem classify_characterization (meta : List CertMeta) :
    ((∃ pre cand post, meta = pre ++ cand :: post ∧
        leafIndex meta = pre.length ∧
        IsLeafCandidate meta cand ∧
        ∀ m ∈ pre, ¬IsLeafCandidate meta m) ∨
      (leafIndex meta = 0 ∧ ∀ m ∈ meta, ¬IsLeafCandidate meta m)) ∧
    chainCerts meta = meta.eraseIdx (leafIndex meta) := by
  refine ⟨?_, chainCerts_eq_eraseIdx meta⟩
  rcases findIdx?_split (candPred (subjectStrings meta)) meta 0 with
    ⟨pre, cand, post, heq, hfind, hp, hpre⟩ | ⟨hfind, hall⟩
  · left
    refine ⟨pre, cand, post, heq, ?_, (candPred_iff meta cand).mp hp, ?_⟩
    · unfold leafIndex
      rw [hfind]
      simp
    · intro m hm hc
      have hcp := (candPred_iff meta m).mpr hc
      rw [hpre m hm] at hcp
      exact Bool.noConfusion hcp
  · right
    refine ⟨by unfold leafIndex; rw [hfind], ?_⟩
    intro m hm hc
    have hcp := (candPred_iff meta m).mpr hc
    rw [hall m hm] at hcp
    exact Bool.noConfusion hcp

/-- Witness for classify_characterization at a concrete two-record
sequence (on which the fallback branch of the disjunction holds). -/
theorem classify_characterization_witness :
    ((∃ pre cand post, ([cexMetaA, cexMetaB] : List CertMeta) = pre ++ cand :: post ∧
        leafIndex [cexMetaA, cexMetaB] = pre.length ∧
        IsLeafCandidate [cexMetaA, cexMetaB] cand ∧
        ∀ m ∈ pre, ¬IsLeafCandidate [cexMetaA, cexMetaB] m) ∨
      (leafIndex [cexMetaA, cexMetaB] = 0 ∧
        ∀ m ∈ ([cexMetaA, cexMetaB] : List CertMeta), ¬IsLeafCandidate [cexMetaA, cexMetaB] m)) ∧
    chainCerts [cexMetaA, cexMetaB] =
      ([cexMetaA, cexMetaB] : List CertMeta).eraseIdx (leafIndex [cexMetaA, cexMetaB]) :=
  classify_characterization [cexMetaA, cexMetaB]

/-- Counterexample to claim C1 as stated: in the sequence cexMetaA
(subject X, issuer X), cexMetaB (no subject, issuer present but empty),
the selection rule of the claim - first certificate whose issuer is
present and equal to no non-absent subject - picks index 1, since the
empty issuer string differs from the only subject X; but the code
treats the falsy empty issuer string as absent, finds no candidate,
and falls back to index 0. -/
theorem leaf_selection_truthiness_cex :
    claimLeafIndex [cexMetaA, cexMetaB] = 1 ∧ leafIndex [cexMetaA, cexMetaB] = 0 :=
  ⟨by decide, by decide⟩

theorem joinNL_cons_eq : ∀ (x : List Char) (xs : List (List Char)),
    joinNL (x :: xs) = x ++ (xs.map (fun m => '\n' :: m)).flatten := by
  intro x xs
  induction xs generalizing x with
  | nil => rw [joinNL]; simp
  | cons b t ih =>
    rw [joinNL, ih b]
    simp

/-- Claim C4 theorem (amended): the chain file content is the chain
certificates' PEM texts in chain order with ONE EXTRA NEWLINE inserted
between consecutive PEMs (each PEM already ends in a newline, so
consecutive blocks are separated by a blank line - the writer uses a
newline-separated join, not plain concatenation, which is what the
counterexample shows); when the chain is empty the file is written
empty, and the writer is total, so this is not an error. -/
theorem chain_file_amended (chain : List CertMeta) :
    (chain = [] → chainFileContent chain = []) ∧
    (∀ c cs, chain = c :: cs →
      chainFileContent chain = c.pem ++ (cs.map (fun m => '\n' :: m.pem)).flatten) := by
  constructor
  · intro h; subst h; rfl
  · intro c cs h
    subst h
    unfold chainFileContent
    rw [if_pos (by simp), List.map_cons, joinNL_cons_eq, List.map_map]
    rfl

/-- Witness for chain_file_amended at the empty chain and at a
two-certificate chain. -/
theorem chain_file_amended_witness :
    chainFileContent ([] : List CertMeta) = [] ∧
    chainFileContent [cexChain1, cexChain2] =
      cexChain1.pem ++ (([cexChain2] : List CertMeta).map (fun m => '\n' :: m.pem)).flatten :=
  ⟨(chain_file_amended []).1 rfl,
    (chain_file_amended [cexChain1, cexChain2]).2 cexChain1 [cexChain2] rfl⟩

/-- Counterexample to claim C4 as stated: for a two-certificate chain
the written content is not the plain concatenation of the two
newline-terminated PEM texts - the join inserts an extra newline
between them. -/
theorem chain_join_inserts_newline_cex :
    chainFileContent [cexChain1, cexChain2] ≠ cexChain1.pem ++ cexChain2.pem := by
  decide

/-- Claim C9 (confirmed): a missing input-path argument yields the
usage failure outcome (exit code 2) with no artifacts written;
extraction yielding zero certificates yields the distinct
extraction-empty outcome (exit code 3) with no artifacts written, not
even the output directory; normal completion writes a non-empty
artifact list (output directory, per-certificate files, leaf, chain,
upload document) under exit code 0; and a run with zero extracted
certificates is never a success. -/
theorem exit_behavior (argc : Nat) (raw : List Char) (inspect : InspectFn) :
    (argc < 3 → runMain argc raw inspect = .usageError) ∧
    (3 ≤ argc → extractCerts raw = [] → runMain argc raw inspect = .extractionEmpty) ∧
    (3 ≤ argc → extractCerts raw ≠ [] →
      ∃ ws, runMain argc raw inspect = .success ws ∧ ws ≠ []) ∧
    (extractCerts raw = [] → ∀ ws, runMain argc raw inspect ≠ .success ws) ∧
    artifacts .usageError = [] ∧ artifacts .extractionEmpty = [] ∧
    exitCode .usageError = 2 ∧ exitCode .extractionEmpty = 3 ∧
    (∀ ws, exitCode (.success ws) = 0) := by
  refine ⟨?_, ?_, ?_, ?_, rfl, rfl, rfl, rfl, fun _ => rfl⟩
  · intro h
    unfold runMain
    rw [if_pos h]
  · intro h he
    unfold runMain
    rw [if_neg (by omega)]
    simp only [he, List.length_nil]
    rw [if_pos trivial]
  · intro h he
    unfold runMain
    rw [if_neg (by omega)]
    simp only []
    rw [if_neg (by simpa [List.length_eq_zero] using he)]
    exact ⟨_, rfl, by simp⟩
  · intro he ws
    unfold runMain
    by_cases h : argc < 3
    · rw [if_pos h]
      exact fun hcontra => RunOutcome.noConfusion hcontra
    · rw [if_neg h]
      simp only [he, List.length_nil]
      rw [if_pos trivial]
      exact fun hcontra => RunOutcome.noConfusion hcontra

/-- Witness for exit_behavior: the usage failure at argc 2, the
extraction-empty failure on empty input, and a successful run on a
well-formed PEM input, all with an always-absent external reader. -/
theorem exit_behavior_witness :
    (runMain 2 "".data (fun _ => (none, none, none, none)) = .usageError) ∧
    (extractCerts "".data = [] ∧
      runMain 3 "".data (fun _ => (none, none, none, none)) = .extractionEmpty) ∧
    (extractCerts "-----BEGIN CERTIFICATE-----\nQUJD\n-----END CERTIFICATE-----".data ≠ [] ∧
      ∃ ws, runMain 3 "-----BEGIN CERTIFICATE-----\nQUJD\n-----END CERTIFICATE-----".data
          (fun _ => (none, none, none, none)) = .success ws ∧ ws ≠ []) :=
  ⟨(exit_behavior 2 "".data (fun _ => (none, none, none, none))).1 (by decide),
    ⟨by decide, (exit_behavior 3 "".data (fun _ => (none, none, none, none))).2.1
      (by decide) (by decide)⟩,
    ⟨by decide,
      (exit_behavior 3 "-----BEGIN CERTIFICATE-----\nQUJD\n-----END CERTIFICATE-----".data
        (fun _ => (none, none, none, none))).2.2.1 (by decide) (by decide)⟩⟩
